import Mathlib

/-!
# Verification of the `nse_indices_1.py` reporting pipeline

Shallow embedding of the single-script pipeline in `src/nse_indices_1.py`:
config-driven fetch of daily index close series, alignment into a date ×
index table, derivation of MTD%/DoD% tables, a ranked summary, a daily
top-3 movers digest, win/loss streaks and a market overview, followed by
workbook/CSV writes and a formatting pass over a second workbook.

Modelling conventions:
* trading dates are `ℕ`; close values are `ℚ`; a missing (NaN) cell is
  `none : Option ℚ`;
* pandas element-wise arithmetic propagates NaN through `Option`; division
  whose denominator is `0` yields a non-finite float in pandas and is
  modelled as a missing cell;
* `Series.sort_values(ascending=False)` is modelled by pandas'
  `nargsort` construction: reverse the entries, sort ascending, reverse
  again, with NaN entries appended last.  The source leaves the default
  `kind='quicksort'`, which pandas documents as not stable, so the order
  of rows with equal keys is unspecified by the program; the model fixes
  one concrete order (a stable sort) as a determinization, and downstream
  results rely only on facts independent of that choice (permutation,
  membership).  `nlargest`/`nsmallest` use `keep='first'`, a documented
  stable first-occurrence selection, modelled accordingly;
* rounding `.round(2)` is round-half-to-even (numpy), on rationals;
* the file system is a map from path strings to abstract file data;
  spreadsheet cell styling carries no data and is not modelled, only the
  sheet names, sheet data, renames and reordering of the formatting stage.
-/

/-- A raw fetched close series: rows of (trading date, close value),
`none` modelling a NaN close cell (`df["Close"]`). -/
abbrev Series := List (Nat × Option ℚ)

/-- Round-half-to-even of a rational to an integer (numpy's rounding). -/
def roundHalfEven (q : ℚ) : ℤ :=
  let f := ⌊q⌋
  let r := q - f
  if r < 1/2 then f
  else if 1/2 < r then f + 1
  else if f % 2 = 0 then f else f + 1

/-- `.round(2)` of pandas: round to 2 decimal places, half to even. -/
def round2 (q : ℚ) : ℚ := (roundHalfEven (q * 100) : ℚ) / 100

section TableBuild

/-- Dates of the aligned table: union of the dates of all fetched series,
deduplicated and sorted ascending (`pd.DataFrame(data_dict)` outer join
followed by `.sort_index(ascending=True)`). -/
def unionDates (data : List (String × Series)) : List Nat :=
  List.insertionSort (· ≤ ·) ((data.flatMap (fun p => p.2.map Prod.fst)).dedup)

/-- The aligned (pre-fill) column of one series over a date index:
a date absent from the series, or present with a NaN close, is missing. -/
def alignedColumn (dates : List Nat) (s : Series) : List (Option ℚ) :=
  dates.map (fun d => (s.lookup d).join)

/-- All aligned (pre-fill) columns, one per fetched series, in fetch order. -/
def alignedCols (data : List (String × Series)) : List (String × List (Option ℚ)) :=
  data.map (fun p => (p.1, alignedColumn (unionDates data) p.2))

/-- Forward fill (`.ffill()`) of one column, carrying accumulator `acc`
(the last observation seen so far, `none` initially). -/
def ffillAcc (acc : Option ℚ) : List (Option ℚ) → List (Option ℚ)
  | [] => []
  | none :: rest => acc :: ffillAcc acc rest
  | some v :: rest => some v :: ffillAcc (some v) rest

/-- Backward fill (`.bfill()`): forward fill of the reversed column. -/
def bfillCol (l : List (Option ℚ)) : List (Option ℚ) :=
  (ffillAcc none l.reverse).reverse

/-- `.ffill().bfill()` applied to one column. -/
def fillCol (l : List (Option ℚ)) : List (Option ℚ) :=
  bfillCol (ffillAcc none l)

/-- The aligned price table `df_close`: outer-join on dates sorted
ascending, drop columns that are entirely missing (`dropna(axis=1,
how="all")`), then forward- and backward-fill each remaining column. -/
def dfCloseCols (data : List (String × Series)) : List (String × List (Option ℚ)) :=
  ((alignedCols data).filter (fun c => c.2.any Option.isSome)).map
    (fun c => (c.1, fillCol c.2))

/-- One MTD-% cell: `((v / v0) - 1) * 100` rounded to 2 decimals, where
`v0` is the column's first-row value.  NaN operands propagate; a zero
denominator produces a non-finite float in pandas, modelled as missing. -/
def mtdCell (v0 v : Option ℚ) : Option ℚ :=
  match v0, v with
  | some a, some b => if a = 0 then none else some (round2 ((b / a - 1) * 100))
  | _, _ => none

/-- One MTD-% column (`(df_close / df_close.iloc[0] - 1) * 100`, rounded). -/
def mtdCol (vs : List (Option ℚ)) : List (Option ℚ) :=
  vs.map (mtdCell (vs.head?.getD none))

/-- One DoD-% cell: `pct_change() * 100` rounded, i.e. `(b - a) / a * 100`
for previous value `a` and current value `b`. -/
def dodCell (prev cur : Option ℚ) : Option ℚ :=
  match prev, cur with
  | some a, some b => if a = 0 then none else some (round2 ((b - a) / a * 100))
  | _, _ => none

/-- One DoD-% column: the first row is NaN, each later row is the
percentage change from the immediately preceding row. -/
def dodCol (vs : List (Option ℚ)) : List (Option ℚ) :=
  match vs with
  | [] => []
  | _ :: _ => none :: (vs.zip vs.tail).map (fun p => dodCell p.1 p.2)

end TableBuild

section SortValues

/-- Key comparison used by `sort_values` on the "MTD % Change" column,
restricted to non-NaN entries. -/
def entryLe (x y : String × Option ℚ) : Prop :=
  x.2.getD 0 ≤ y.2.getD 0

instance : DecidableRel entryLe := fun x y => by
  unfold entryLe; infer_instance

instance : IsTotal (String × Option ℚ) entryLe :=
  ⟨fun x y => le_total (x.2.getD 0) (y.2.getD 0)⟩

instance : IsTrans (String × Option ℚ) entryLe :=
  ⟨fun _ _ _ h h' => le_trans h h'⟩

/-- pandas `nargsort(ascending=False, na_position='last')`, as used by
`sort_values(by=..., ascending=False)`: split off NaN entries, reverse the
non-NaN entries, argsort them ascending, reverse the result, and append
the NaN entries in their original order.  The source uses the default
`kind='quicksort'`, which pandas documents as not stable: the program
does not determine the relative order of equal keys.  This model
determinizes that choice with a stable sort; only facts that hold for
every sort of the keys (permutation, membership, key order) are used of
it downstream. -/
def sortValuesDesc (l : List (String × Option ℚ)) : List (String × Option ℚ) :=
  (List.insertionSort entryLe (l.filter (fun e => e.2.isSome)).reverse).reverse
    ++ l.filter (fun e => !e.2.isSome)

/-- Key comparison for `nlargest`/`nsmallest` over a dropna'd row. -/
def rowLe (x y : String × ℚ) : Prop := x.2 ≤ y.2

instance : DecidableRel rowLe := fun x y => by
  unfold rowLe; infer_instance

instance : IsTotal (String × ℚ) rowLe := ⟨fun x y => le_total x.2 y.2⟩

instance : IsTrans (String × ℚ) rowLe := ⟨fun _ _ _ h h' => le_trans h h'⟩

/-- Stable descending sort of a dropna'd row (pandas `nlargest` with
`keep='first'` returns its first `n` elements). -/
def rowSortDesc (row : List (String × ℚ)) : List (String × ℚ) :=
  (List.insertionSort rowLe row.reverse).reverse

/-- Stable ascending sort of a dropna'd row (pandas `nsmallest` with
`keep='first'` returns its first `n` elements). -/
def rowSortAsc (row : List (String × ℚ)) : List (String × ℚ) :=
  List.insertionSort rowLe row

end SortValues

section DerivedTables

/-- Last element of a column (`.iloc[-1]`), missing for an empty column. -/
def lastCell (vs : List (Option ℚ)) : Option ℚ := (vs.getLast?).getD none

/-- The per-index entries `(name, MTD % at the final date)` in original
column order (`df_pct_mtd.iloc[-1]`). -/
def mtdLastEntries (cols : List (String × List (Option ℚ))) :
    List (String × Option ℚ) :=
  cols.map (fun c => (c.1, lastCell (mtdCol c.2)))

/-- The Summary table: the final-date MTD-% row sorted descending by
value (`sort_values(by="MTD % Change", ascending=False)`). -/
def summaryOf (cols : List (String × List (Option ℚ))) :
    List (String × Option ℚ) :=
  sortValuesDesc (mtdLastEntries cols)

/-- The DoD-% table columns derived from the aligned close columns. -/
def dodTable (cols : List (String × List (Option ℚ))) :
    List (String × List (Option ℚ)) :=
  cols.map (fun c => (c.1, dodCol c.2))

/-- The MTD-% table columns derived from the aligned close columns. -/
def mtdTable (cols : List (String × List (Option ℚ))) :
    List (String × List (Option ℚ)) :=
  cols.map (fun c => (c.1, mtdCol c.2))

/-- Row `i` of a column-major table (`df.loc[dt]` at the `i`-th date). -/
def rowAt (cols : List (String × List (Option ℚ))) (i : Nat) :
    List (String × Option ℚ) :=
  cols.map (fun c => (c.1, c.2.getD i none))

/-- `.dropna()` of a row: the non-missing entries in column order. -/
def dropnaRow (row : List (String × Option ℚ)) : List (String × ℚ) :=
  row.filterMap (fun e => e.2.map (fun v => (e.1, v)))

/-- `row.nlargest(3)`: the 3 largest values, ties keeping first
occurrences (column order). -/
def top3 (row : List (String × ℚ)) : List (String × ℚ) :=
  (rowSortDesc row).take 3

/-- `row.nsmallest(3)`: the 3 smallest values, ties keeping first
occurrences (column order). -/
def bottom3 (row : List (String × ℚ)) : List (String × ℚ) :=
  (rowSortAsc row).take 3

/-- The Daily Movers digest: iterate the DoD-% table's dates most recent
first, drop dates whose row is entirely missing, and record the top-3
gainer and loser index names.  (The source renders the date with
`strftime("%d-%b-%y")`; the calendar rendering carries no information
used by any claim and the date is kept as a number.) -/
def dailySummaryOf (dates : List Nat) (cols : List (String × List (Option ℚ))) :
    List (Nat × List String × List String) :=
  ((List.range dates.length).reverse).filterMap (fun i =>
    let row := dropnaRow (rowAt cols i)
    if row.isEmpty then none
    else some (dates.getD i 0, (top3 row).map Prod.fst, (bottom3 row).map Prod.fst))

/-- `diff().fillna(0)` of one close column: the first delta and any delta
with a missing operand become `0`. -/
def diffsFill (vs : List (Option ℚ)) : List ℚ :=
  match vs with
  | [] => []
  | _ :: _ =>
    0 :: (vs.zip vs.tail).map (fun p =>
      match p.1, p.2 with
      | some a, some b => b - a
      | _, _ => 0)

/-- One pass of the streak loop: `cur = cur + 1 if v else 0;
best = max(best, cur)`. -/
def streakStep (p : Nat × Nat) (b : Bool) : Nat × Nat :=
  (if b then p.1 + 1 else 0, max p.2 (if b then p.1 + 1 else 0))

/-- The maximal streak counter computed by the source's loop. -/
def longestStreak (l : List Bool) : Nat := (l.foldl streakStep (0, 0)).2

/-- The boolean day-over-day win indicators `(diffs > 0)` of a column. -/
def winBools (vs : List (Option ℚ)) : List Bool :=
  (diffsFill vs).map (fun d => decide (0 < d))

/-- The boolean day-over-day loss indicators `(diffs < 0)` of a column. -/
def lossBools (vs : List (Option ℚ)) : List Bool :=
  (diffsFill vs).map (fun d => decide (d < 0))

/-- The Streaks table: longest win and longest lose streak per index. -/
def streaksOf (cols : List (String × List (Option ℚ))) :
    List (String × Nat × Nat) :=
  cols.map (fun c => (c.1, longestStreak (winBools c.2), longestStreak (lossBools c.2)))

end DerivedTables

section Digits

/-- The decimal digit characters used when rendering numbers to CSV. -/
def digitChar (n : Nat) : Char :=
  match n with
  | 0 => '0' | 1 => '1' | 2 => '2' | 3 => '3' | 4 => '4'
  | 5 => '5' | 6 => '6' | 7 => '7' | 8 => '8' | _ => '9'

/-- Numeric value of a decimal digit character. -/
def charVal (c : Char) : Nat :=
  match c with
  | '0' => 0 | '1' => 1 | '2' => 2 | '3' => 3 | '4' => 4
  | '5' => 5 | '6' => 6 | '7' => 7 | '8' => 8 | '9' => 9
  | _ => 10

/-- Big-endian decimal digit string, fuel-indexed so that it reduces in
the kernel; `fuel = n + 1` always suffices since `n / 10 < n`. -/
def natCharsAux : Nat → Nat → List Char
  | 0, _ => []
  | fuel + 1, n =>
    if n < 10 then [digitChar n]
    else natCharsAux fuel (n / 10) ++ [digitChar (n % 10)]

/-- Big-endian decimal digit string of a natural number. -/
def natChars (n : Nat) : List Char := natCharsAux (n + 1) n

/-- Value of a big-endian decimal digit string. -/
def charsVal (cs : List Char) : Nat :=
  cs.foldl (fun a c => a * 10 + charVal c) 0

/-- Two-digit zero-padded rendering of `n < 100` (the fractional part of
a 2-decimal value). -/
def pad2 (n : Nat) : List Char := [digitChar (n / 10), digitChar (n % 10)]

/-- Decimal rendering of a 2-decimal value given as a signed number of
cents, e.g. `-50 ↦ "-0.50"`.  (Python's float `repr` may drop trailing
zeros, e.g. `-0.5`; the parsed value is identical, and this model fixes
the equivalent two-digit form.) -/
def centsChars (z : ℤ) : List Char :=
  (if z < 0 then ['-'] else []) ++ natChars (z.natAbs / 100) ++ '.' :: pad2 (z.natAbs % 100)

/-- Split a character list on a separator character. -/
def splitOnChar (sep : Char) : List Char → List (List Char)
  | [] => [[]]
  | c :: rest =>
    if c = sep then [] :: splitOnChar sep rest
    else
      match splitOnChar sep rest with
      | [] => [[c]]
      | g :: gs => (c :: g) :: gs

/-- Parse an unsigned 2-decimal rendering back to cents. -/
def parseCentsNat (cs : List Char) : Option Nat :=
  match splitOnChar '.' cs with
  | [ip, [d1, d2]] => some (charsVal ip * 100 + charVal d1 * 10 + charVal d2)
  | _ => none

/-- Parse a signed 2-decimal rendering back to cents. -/
def parseCents (cs : List Char) : Option ℤ :=
  match cs with
  | [] => none
  | c :: rest =>
    if c = '-' then (parseCentsNat rest).map (fun n => -(Int.ofNat n))
    else (parseCentsNat (c :: rest)).map Int.ofNat

/-- String form of a natural number (used in the overview digest). -/
def natStr (n : Nat) : String := String.mk (natChars n)

/-- String form of a 2-decimal value given in cents. -/
def centsStr (z : ℤ) : String := String.mk (centsChars z)

end Digits

section SummaryCsv

/-- The header line pandas writes for `summary.to_csv(...)`: the unnamed
index column followed by the single value column. -/
def csvHeader : List Char := (",MTD % Change").data

/-- One CSV data line: index name, comma, the value (an empty field for a
missing value, as pandas writes for NaN). -/
def renderRow (e : String × Option ℤ) : List Char :=
  e.1.data ++ ',' :: (match e.2 with | some z => centsChars z | none => [])

/-- The summary CSV as a list of lines (`summary.to_csv(csv_path)`). -/
def renderSummaryCsv (tbl : List (String × Option ℤ)) : List (List Char) :=
  csvHeader :: tbl.map renderRow

/-- Parse one CSV data line back to a (name, value) pair. -/
def parseRow (cs : List Char) : Option (String × Option ℤ) :=
  match splitOnChar ',' cs with
  | [nm, []] => some (String.mk nm, none)
  | [nm, v] => (parseCents v).map (fun z => (String.mk nm, some z))
  | _ => none

/-- Parse the data lines one after the other; any bad line fails the
read. -/
def parseRows : List (List Char) → Option (List (String × Option ℤ))
  | [] => some []
  | r :: rs =>
    match parseRow r, parseRows rs with
    | some e, some es => some (e :: es)
    | _, _ => none

/-- Read the summary CSV back (`pd.read_csv`): check the header and parse
every data line. -/
def parseSummaryCsv (lines : List (List Char)) : Option (List (String × Option ℤ)) :=
  match lines with
  | [] => none
  | h :: rows => if h = csvHeader then parseRows rows else none

/-- The summary values as cents: the table's values are `.round(2)`
results, so scaling by 100 is exact. -/
def summaryCents (summary : List (String × Option ℚ)) : List (String × Option ℤ) :=
  summary.map (fun e => (e.1, e.2.map (fun q => ⌊q * 100⌋)))

end SummaryCsv

section Overview

/-- `summary["MTD % Change"] > 0` on one entry (false on NaN, as for
float comparisons with NaN). -/
def optPos (x : Option ℚ) : Bool :=
  match x with
  | some v => decide (0 < v)
  | none => false

/-- `summary["MTD % Change"] < 0` on one entry. -/
def optNeg (x : Option ℚ) : Bool :=
  match x with
  | some v => decide (v < 0)
  | none => false

/-- `summary["MTD % Change"].mean()`: pandas skips NaN entries; the mean
of zero non-NaN entries is NaN. -/
def meanMtd (summary : List (String × Option ℚ)) : Option ℚ :=
  let vals := summary.filterMap (fun e => e.2)
  if vals.isEmpty then none else some (vals.sum / vals.length)

/-- The mood label; NaN average compares false on both sides, hence
"Neutral". -/
def moodOf (avg : Option ℚ) : String :=
  match avg with
  | some a => if 0 < a then "Bullish" else if a < 0 then "Bearish" else "Neutral"
  | none => "Neutral"

/-- `summary.index[0] if len(summary) else ""`. -/
def bestName (summary : List (String × Option ℚ)) : String :=
  match summary with
  | [] => ""
  | e :: _ => e.1

/-- `summary.index[-1] if len(summary) else ""`. -/
def worstName (summary : List (String × Option ℚ)) : String :=
  ((summary.getLast?).map Prod.fst).getD ""

/-- Rendering of `f"{round(avg_change, 2)}%"`; a NaN average prints as
"nan". -/
def avgStr (avg : Option ℚ) : String :=
  match avg with
  | some q => centsStr (roundHalfEven (q * 100)) ++ "%"
  | none => "nan%"

/-- The Date Range row's value.  (The source renders the bounds with
`strftime("%d-%b-%Y")`; the calendar rendering carries no information
used by any claim and the bounds are rendered as numbers here.) -/
def rangeStr (startD endD : Nat) : String :=
  natStr startD ++ " → " ++ natStr endD

/-- The 7-row Market Overview key/value digest. -/
def marketOverview (startD endD : Nat) (summary : List (String × Option ℚ)) :
    List (String × String) :=
  [("Date Range", rangeStr startD endD),
   ("Average Market Change (%)", avgStr (meanMtd summary)),
   ("Total Gainers", natStr (summary.countP (fun e => optPos e.2))),
   ("Total Losers", natStr (summary.countP (fun e => optNeg e.2))),
   ("Top Performer", bestName summary),
   ("Bottom Performer", worstName summary),
   ("Market Mood", moodOf (meanMtd summary))]

end Overview

section RunModel

/-- Perspective of one sheet's data in a workbook file (cell styling,
column widths etc. carry no data and are not modelled). -/
inductive SheetData where
  | frame (dates : List Nat) (cols : List (String × List (Option ℚ)))
  | summarySheet (rows : List (String × Option ℚ))
  | moversSheet (rows : List (Nat × List String × List String))
  | streaksSheet (rows : List (String × Nat × Nat))
  | overviewSheet (rows : List (String × String))
deriving DecidableEq

/-- Contents of a file written by the run. -/
inductive FileData where
  | wb (sheets : List (String × SheetData))
  | csv (lines : List (List Char))
  | cacheCsv (s : Series)
deriving DecidableEq

/-- A file-system snapshot: path → file contents. -/
abbrev FS := String → Option FileData

/-- Write (create or overwrite) one file. -/
def fsUpdate (fs : FS) (path : String) (v : FileData) : FS :=
  fun q => if q = path then some v else fs q

/-- `RAW_XL` (path of the raw workbook), relative to the program root. -/
def rawXl : String := "nse_indices_1_raw.xlsx"

/-- `OUT_XL` (path of the dashboard workbook). -/
def outXl : String := "nse_indices_1_dashboard.xlsx"

/-- `csv_path` (path of the flat summary file under the data dir). -/
def csvPath : String := "data/nse_indices_1_latest.csv"

/-- `symbol.replace('^', 'caret_')`. -/
def sanitizeSym (sym : String) : String :=
  String.mk (sym.data.flatMap (fun c => if c = '^' then ("caret_").data else [c]))

/-- The per-symbol cache file path. -/
def cachePath (sym : String) : String :=
  "cache/" ++ sanitizeSym sym ++ ".csv"

/-- Fatal errors the run can raise. -/
inductive RunError where
  | NoDataFetched
  | RawWorkbookMissing
  | LoadError
deriving DecidableEq

/-- Result of a run: the final file system and the fatal error raised,
if any. -/
structure RunResult where
  fs : FS
  err : Option RunError

/-- Whether one symbol's fetch succeeds: the provider call does not error
(`none` models a raised exception) and the frame is non-empty. -/
def fetchOk (fetch : String → Option Series) (sym : String) : Prop :=
  ∃ s, fetch sym = some s ∧ s ≠ []

/-- The accumulated `data_dict`: per configured (name, symbol) pair,
keep the close series when the provider call neither errors (`none`) nor
returns an empty frame; failures are skipped. -/
def fetchedData (fetch : String → Option Series) (indices : List (String × String)) :
    List (String × Series) :=
  indices.filterMap (fun p =>
    match fetch p.2 with
    | some s => if s.isEmpty then none else some (p.1, s)
    | none => none)

/-- One step of the cache-writing fetch loop: on a successful non-empty
fetch, dump the series to its cache file (best effort). -/
def cacheStep (fetch : String → Option Series) (f : FS) (p : String × String) : FS :=
  match fetch p.2 with
  | some s => if s.isEmpty then f else fsUpdate f (cachePath p.2) (FileData.cacheCsv s)
  | none => f

/-- The cache-file writes performed during the fetch loop (one best-effort
CSV dump per successful fetch). -/
def cacheWrites (fetch : String → Option Series) (indices : List (String × String))
    (fs : FS) : FS :=
  indices.foldl (cacheStep fetch) fs

/-- All seven derived tables of the aggregation stage. -/
structure Tables where
  dates : List Nat
  closeCols : List (String × List (Option ℚ))
  mtdCols : List (String × List (Option ℚ))
  dodCols : List (String × List (Option ℚ))
  summary : List (String × Option ℚ)
  movers : List (Nat × List String × List String)
  streaks : List (String × Nat × Nat)
  overview : List (String × String)

/-- The aggregation stage (`# === PROCESS DATA ===`). -/
def tablesOf (startD endD : Nat) (dd : List (String × Series)) : Tables :=
  let dates := unionDates dd
  let cols := dfCloseCols dd
  let summ := summaryOf cols
  ⟨dates, cols, mtdTable cols, dodTable cols, summ,
   dailySummaryOf dates (dodTable cols), streaksOf cols,
   marketOverview startD endD summ⟩

/-- A date-indexed sheet as written by `to_excel` after
`.sort_index(ascending=False)`: dates and column values reversed. -/
def frameDesc (dates : List Nat) (cols : List (String × List (Option ℚ))) : SheetData :=
  SheetData.frame dates.reverse (cols.map (fun c => (c.1, c.2.reverse)))

/-- The raw workbook: seven sheets in the fixed write order. -/
def rawWbOf (t : Tables) : FileData :=
  FileData.wb
    [("Index Close", frameDesc t.dates t.closeCols),
     ("MTD %", frameDesc t.dates t.mtdCols),
     ("Day over Day %", frameDesc t.dates t.dodCols),
     ("Summary", SheetData.summarySheet t.summary),
     ("Daily Movers", SheetData.moversSheet t.movers),
     ("Streaks", SheetData.streaksSheet t.streaks),
     ("Market Overview", SheetData.overviewSheet t.overview)]

/-- The raw-writer stage: write the raw workbook, then the summary CSV. -/
def rawWriterStage (t : Tables) (fs : FS) : FS :=
  fsUpdate (fsUpdate fs rawXl (rawWbOf t)) csvPath
    (FileData.csv (renderSummaryCsv (summaryCents t.summary)))

/-- Sheet renames applied by the formatter (`ws.title = "DoD%"`,
`ws.title = "Overview"`). -/
def renameSheet (s : String × SheetData) : String × SheetData :=
  if s.1 = "Day over Day %" then ("DoD%", s.2)
  else if s.1 = "Market Overview" then ("Overview", s.2)
  else s

/-- The fixed dashboard sheet order. -/
def desiredOrder : List String :=
  ["Overview", "Summary", "Index Close", "MTD %", "DoD%", "Daily Movers", "Streaks"]

/-- `wb._sheets = [wb[s] for s in desired if s in wb.sheetnames]` after
the renames; absent sheets are dropped. -/
def formatWb (sheets : List (String × SheetData)) : List (String × SheetData) :=
  desiredOrder.filterMap (fun n =>
    ((sheets.map renameSheet).lookup n).map (fun sd => (n, sd)))

/-- The formatter stage: refuse to run if the raw workbook is absent
(`FileNotFoundError`), reload it, restyle, and write the dashboard
workbook at its own path.  (`load_workbook` on a non-workbook file fails;
modelled as `LoadError`.) -/
def formatterStage (fs : FS) : FS × Option RunError :=
  match fs rawXl with
  | some (FileData.wb sheets) =>
      (fsUpdate fs outXl (FileData.wb (formatWb sheets)), none)
  | some _ => (fs, some RunError.LoadError)
  | none => (fs, some RunError.RawWorkbookMissing)

/-- The whole run: fetch (with cache writes), abort with `NoDataFetched`
if nothing was fetched, aggregate, write the raw workbook and summary
CSV, then format the dashboard workbook. -/
def runScript (startD endD : Nat) (fetch : String → Option Series)
    (indices : List (String × String)) (fs0 : FS) : RunResult :=
  let dd := fetchedData fetch indices
  let fs1 := cacheWrites fetch indices fs0
  if dd.isEmpty then ⟨fs1, some RunError.NoDataFetched⟩
  else
    let fs2 := rawWriterStage (tablesOf startD endD dd) fs1
    let f := formatterStage fs2
    ⟨f.1, f.2⟩

/-- The file system right after the raw-writer stage (identity when the
run aborts before it). -/
def postRaw (startD endD : Nat) (fetch : String → Option Series)
    (indices : List (String × String)) (fs0 : FS) : FS :=
  let dd := fetchedData fetch indices
  let fs1 := cacheWrites fetch indices fs0
  if dd.isEmpty then fs1
  else rawWriterStage (tablesOf startD endD dd) fs1

/-- The Market Overview rows recorded in the raw workbook of a finished
run, if that file holds a workbook with such a sheet. -/
def overviewOfRun (r : RunResult) : Option (List (String × String)) :=
  match r.fs rawXl with
  | some (FileData.wb sheets) =>
      match sheets.lookup "Market Overview" with
      | some (SheetData.overviewSheet rows) => some rows
      | _ => none
  | _ => none

end RunModel

section FetchWindow

/-- Modelled from the spec: the external provider (`yf.Ticker(...).history`)
returns daily rows for trading dates `d` with `start ≤ d < end` — the
`end` argument is exclusive. -/
def historyRequested (startArg endArg d : Nat) : Prop :=
  startArg ≤ d ∧ d < endArg

/-- The `end` argument the fetcher passes:
`(pd.to_datetime(end_date) + pd.Timedelta(days=1)).date()`. -/
def fetchEndArg (endDate : Nat) : Nat := endDate + 1

end FetchWindow

section StableSortLemmas

/-- `sort_values(ascending=False)` permutes its input: one output row per
input row. -/
theorem sortValuesDesc_perm (l : List (String × Option ℚ)) :
    (sortValuesDesc l).Perm l := by
  unfold sortValuesDesc
  refine List.Perm.trans (List.Perm.append_right _ ?_) (List.filter_append_perm _ l)
  exact ((List.reverse_perm _).trans (List.perm_insertionSort _ _)).trans
    (List.reverse_perm _)

end StableSortLemmas

/-- **C7**: the fetcher's provider request covers exactly the closed
interval `[start_date, end_date]`: the provider's exclusive `end`
argument is `end_date + 1 day`, so a date is in the requested window iff
`start_date ≤ d ∧ d ≤ end_date`. -/
theorem C7_fetch_window_inclusive (s e d : Nat) :
    historyRequested s (fetchEndArg e) d ↔ (s ≤ d ∧ d ≤ e) := by
  unfold historyRequested fetchEndArg
  omega

/-- **C6 counterexample**: a column whose first close is `0` makes the
first MTD-% cell `0/0`, i.e. NaN, not `0.00`: the claim fails on the
aligned table built from the single series `[(0, 0), (1, 5)]`. -/
theorem C6_counterexample :
    ¬ (∀ c ∈ mtdTable (dfCloseCols [("A", [(0, some 0), (1, some 5)])]),
        c.2.head? = some (some 0)) := by
  decide

/-- **C6 (amended)**: in the MTD-% table, the value at the first date is
exactly `0.00` for every column whose first-row close value is nonzero;
a zero first value yields `0/0`, a missing cell. -/
theorem C6_mtd_first_row_zero (data : List (String × Series)) (name : String)
    (vs : List (Option ℚ)) (hc : (name, vs) ∈ dfCloseCols data) (a : ℚ)
    (ha : vs.head? = some (some a)) (h0 : a ≠ 0) :
    (name, mtdCol vs) ∈ mtdTable (dfCloseCols data) ∧
    (mtdCol vs).head? = some (some 0) := by
  constructor
  · exact List.mem_map.mpr ⟨(name, vs), hc, rfl⟩
  · have hget : vs.head?.getD none = some a := by rw [ha]; rfl
    unfold mtdCol
    rw [hget, List.head?_map, ha]
    have : mtdCell (some a) (some a) = some (round2 ((a / a - 1) * 100)) := by
      simp [mtdCell, h0]
    rw [Option.map_some', this, div_self h0]
    norm_num [round2, roundHalfEven]

/-- Witness for the amended C6 on a concrete two-day series. -/
theorem C6_mtd_first_row_zero_witness :
    ("A", mtdCol [some 2, some 4]) ∈
      mtdTable (dfCloseCols [("A", [(0, some 2), (1, some 4)])]) ∧
    (mtdCol [some 2, some 4]).head? = some (some 0) :=
  C6_mtd_first_row_zero [("A", [(0, some 2), (1, some 4)])] "A"
    [some 2, some 4] (by decide) 2 (by decide) (by norm_num)

section FillLemmas

/-- The carry left by a forward fill: the last non-missing observation of
the column, or the initial accumulator if there is none. -/
def ffillCarry (acc : Option ℚ) (l : List (Option ℚ)) : Option ℚ :=
  l.foldl (fun a x => if x.isSome then x else a) acc

theorem ffillCarry_nil (acc : Option ℚ) : ffillCarry acc [] = acc := rfl

theorem ffillCarry_cons_none (acc : Option ℚ) (l : List (Option ℚ)) :
    ffillCarry acc (none :: l) = ffillCarry acc l := rfl

theorem ffillCarry_cons_some (acc : Option ℚ) (v : ℚ) (l : List (Option ℚ)) :
    ffillCarry acc (some v :: l) = ffillCarry (some v) l := rfl

/-- Forward fill splits over append, threading the carry. -/
theorem ffillAcc_append (acc : Option ℚ) (xs ys : List (Option ℚ)) :
    ffillAcc acc (xs ++ ys) = ffillAcc acc xs ++ ffillAcc (ffillCarry acc xs) ys := by
  induction xs generalizing acc with
  | nil => rfl
  | cons x xs ih =>
    cases x with
    | none =>
      simp only [List.cons_append, ffillAcc, ffillCarry_cons_none, List.append_eq, ih]
    | some v =>
      simp only [List.cons_append, ffillAcc, ffillCarry_cons_some, List.append_eq, ih]

/-- A forward fill started from a present accumulator leaves no missing
cell. -/
theorem ffillAcc_all_some {acc : Option ℚ} (h : acc.isSome = true)
    (l : List (Option ℚ)) : ∀ x ∈ ffillAcc acc l, x.isSome = true := by
  induction l generalizing acc with
  | nil => intro x hx; cases hx
  | cons y ys ih =>
    cases y with
    | none =>
      intro x hx
      rcases List.mem_cons.mp hx with rfl | hx'
      · exact h
      · exact ih h x hx'
    | some v =>
      intro x hx
      rcases List.mem_cons.mp hx with rfl | hx'
      · rfl
      · exact ih (by simp) x hx'

/-- Forward fill of an all-present column is all-present. -/
theorem ffillAcc_some_of_all {l : List (Option ℚ)}
    (h : ∀ x ∈ l, x.isSome = true) (acc : Option ℚ) :
    ∀ y ∈ ffillAcc acc l, y.isSome = true := by
  induction l generalizing acc with
  | nil => intro y hy; cases hy
  | cons z zs ih =>
    cases z with
    | none =>
      exact absurd (h none (List.mem_cons_self _ _)) (by simp)
    | some v =>
      intro y hy
      rcases List.mem_cons.mp hy with rfl | hy'
      · rfl
      · exact ih (fun x hx => h x (List.mem_cons_of_mem _ hx)) _ y hy'

theorem ffillCarry_isSome_of_acc {acc : Option ℚ} (h : acc.isSome = true) :
    ∀ l : List (Option ℚ), (ffillCarry acc l).isSome = true := by
  intro l
  induction l generalizing acc with
  | nil => exact h
  | cons z zs ih =>
    cases z with
    | none => rw [ffillCarry_cons_none]; exact ih h
    | some w => rw [ffillCarry_cons_some]; exact ih (by simp)

/-- Forward fill preserves the existence of a present cell. -/
theorem any_ffillAcc {l : List (Option ℚ)} (h : l.any Option.isSome = true)
    (acc : Option ℚ) : (ffillAcc acc l).any Option.isSome = true := by
  induction l generalizing acc with
  | nil => simp at h
  | cons y ys ih =>
    cases y with
    | none =>
      have hys : ys.any Option.isSome = true := by simpa using h
      simpa [ffillAcc] using Or.inr (ih hys acc)
    | some v => simp [ffillAcc]

/-- The forward-fill carry over a column with a present cell is present. -/
theorem ffillCarry_isSome {l : List (Option ℚ)} (h : l.any Option.isSome = true)
    (acc : Option ℚ) : (ffillCarry acc l).isSome = true := by
  induction l generalizing acc with
  | nil => simp at h
  | cons y ys ih =>
    cases y with
    | none =>
      have hys : ys.any Option.isSome = true := by simpa using h
      rw [ffillCarry_cons_none]
      exact ih hys _
    | some v =>
      rw [ffillCarry_cons_some]
      exact ffillCarry_isSome_of_acc (by simp) ys

/-- After `.ffill().bfill()`, a column that had at least one present cell
has no missing cell at all. -/
theorem fillCol_all_some : ∀ l : List (Option ℚ),
    l.any Option.isSome = true → ∀ x ∈ fillCol l, x.isSome = true := by
  intro l
  induction l with
  | nil => intro h; simp at h
  | cons y ys ih =>
    intro h x hx
    cases y with
    | some v =>
      -- the forward-filled column is entirely present already
      have hall : ∀ z ∈ ffillAcc none (some v :: ys), z.isSome = true := by
        intro z hz
        rcases List.mem_cons.mp (by simpa [ffillAcc] using hz) with rfl | hz'
        · rfl
        · exact ffillAcc_all_some (by simp) ys z hz'
      unfold fillCol bfillCol at hx
      rw [List.mem_reverse] at hx
      exact ffillAcc_some_of_all (fun z hz => hall z (List.mem_reverse.mp hz)) none x hx
    | none =>
      have hys : ys.any Option.isSome = true := by simpa using h
      unfold fillCol bfillCol at hx
      have hm : ffillAcc none (none :: ys) = none :: ffillAcc none ys := rfl
      rw [hm] at hx
      have hrev : (none :: ffillAcc none ys).reverse =
          (ffillAcc none ys).reverse ++ [none] := by simp
      rw [hrev, ffillAcc_append] at hx
      rw [List.mem_reverse, List.mem_append] at hx
      rcases hx with hx1 | hx2
      · have : x ∈ fillCol ys := by
          unfold fillCol bfillCol
          rw [List.mem_reverse]
          exact hx1
        exact ih hys x this
      · have hcar : (ffillCarry none (ffillAcc none ys).reverse).isSome = true := by
          refine ffillCarry_isSome ?_ none
          rw [List.any_eq_true]
          have := any_ffillAcc hys (none : Option ℚ)
          rw [List.any_eq_true] at this
          obtain ⟨z, hz, hzs⟩ := this
          exact ⟨z, List.mem_reverse.mpr hz, hzs⟩
        have : x ∈ ffillAcc (ffillCarry none (ffillAcc none ys).reverse) [none] := hx2
        rcases List.mem_cons.mp this with rfl | hc
        · exact hcar
        · cases hc
end FillLemmas

section KeyedLookup

/-- In a list with pairwise-distinct keys, entries are determined by
their key. -/
theorem eq_of_mem_key_nodup {α β : Type} {l : List (α × β)}
    (h : (l.map Prod.fst).Nodup) {p q : α × β}
    (hp : p ∈ l) (hq : q ∈ l) (hk : p.1 = q.1) : p = q := by
  induction l with
  | nil => cases hp
  | cons x xs ih =>
    rw [List.map_cons, List.nodup_cons] at h
    have hx : x.1 ∉ xs.map Prod.fst := h.1
    have hxs : (xs.map Prod.fst).Nodup := h.2
    rcases List.mem_cons.mp hp with rfl | hp' <;>
      rcases List.mem_cons.mp hq with rfl | hq'
    · rfl
    · exact absurd (hk ▸ List.mem_map_of_mem Prod.fst hq') hx
    · exact absurd (hk ▸ List.mem_map_of_mem Prod.fst hp') hx
    · exact ih hxs hp' hq'

end KeyedLookup

/-- Unpack membership in the aligned price table: each kept column is the
fill of a non-empty aligned column of one fetched series. -/
theorem mem_dfCloseCols {data : List (String × Series)}
    {c : String × List (Option ℚ)} (hc : c ∈ dfCloseCols data) :
    ∃ p ∈ data, c.1 = p.1 ∧
      c.2 = fillCol (alignedColumn (unionDates data) p.2) ∧
      (alignedColumn (unionDates data) p.2).any Option.isSome = true := by
  unfold dfCloseCols at hc
  obtain ⟨c₀, hc₀, hceq⟩ := List.mem_map.mp hc
  have hfil := List.mem_filter.mp hc₀
  obtain ⟨p, hp, hpeq⟩ := List.mem_map.mp hfil.1
  refine ⟨p, hp, ?_, ?_, ?_⟩
  · rw [← hceq, ← hpeq]
  · rw [← hceq, ← hpeq]
  · have := hfil.2
    rw [← hpeq] at this
    exact this

/-- **C2**: for every non-empty set of fetched raw series (with the
distinct config names), (i) the aligned price table has no missing cell
from the first non-missing observation of each column onward (after the
fills, in fact no missing cell at all), (ii) its date index is the
ascending-sorted duplicate-free union of all fetched series' dates, and
(iii) every column that was entirely empty before filling is dropped,
the kept columns being exactly the filled non-empty aligned columns. -/
theorem C2_aligned_table_invariants (data : List (String × Series))
    (_hne : data ≠ []) (hnames : (data.map Prod.fst).Nodup) :
    (∀ c ∈ dfCloseCols data, ∀ i j : Nat, i ≤ j → j < c.2.length →
      (c.2.getD i none).isSome = true → (c.2.getD j none).isSome = true) ∧
    (unionDates data).Sorted (· ≤ ·) ∧
    (unionDates data).Nodup ∧
    (∀ d : Nat, d ∈ unionDates data ↔ ∃ p ∈ data, d ∈ p.2.map Prod.fst) ∧
    (∀ p ∈ data, (alignedColumn (unionDates data) p.2).all Option.isNone = true →
      p.1 ∉ (dfCloseCols data).map Prod.fst) ∧
    (∀ c ∈ dfCloseCols data, ∃ p ∈ data, c.1 = p.1 ∧
      c.2 = fillCol (alignedColumn (unionDates data) p.2) ∧
      (alignedColumn (unionDates data) p.2).any Option.isSome = true) := by
  refine ⟨?_, ?_, ?_, ?_, ?_, fun c hc => mem_dfCloseCols hc⟩
  · intro c hc i j hij hj hsome
    obtain ⟨p, hp, -, hcol, hany⟩ := mem_dfCloseCols hc
    have hall := fillCol_all_some _ hany
    rw [List.getD_eq_getElem?_getD, List.getElem?_eq_getElem hj]
    refine hall _ ?_
    rw [← hcol]
    exact List.getElem_mem hj
  · exact List.sorted_insertionSort _ _
  · exact ((List.perm_insertionSort _ _).nodup_iff).mpr (List.nodup_dedup _)
  · intro d
    unfold unionDates
    rw [(List.perm_insertionSort _ _).mem_iff, List.mem_dedup, List.mem_flatMap]
  · intro p hp hall hmem
    obtain ⟨c, hc, hck⟩ := List.mem_map.mp hmem
    obtain ⟨p', hp', hk, -, hany⟩ := mem_dfCloseCols hc
    have : p' = p := eq_of_mem_key_nodup hnames hp' hp (by rw [← hk, hck])
    subst this
    obtain ⟨x, hx, hxs⟩ := List.any_eq_true.mp hany
    have hxn := List.all_eq_true.mp hall x hx
    cases x with
    | none => exact absurd hxs (by simp)
    | some v => exact absurd hxn (by simp)

/-- Concrete two-series input used by the C2 witness: one series with a
single observation, one with a leading missing cell and a gap. -/
def dataC2 : List (String × Series) :=
  [("A", [(1, some 3)]), ("B", [(0, none), (2, some 5)])]

/-- Witness for C2 on two concrete series, one of which has a gap and a
leading missing cell. -/
theorem C2_aligned_table_invariants_witness :
    (∀ c ∈ dfCloseCols dataC2, ∀ i j : Nat, i ≤ j → j < c.2.length →
      (c.2.getD i none).isSome = true → (c.2.getD j none).isSome = true) ∧
    (unionDates dataC2).Sorted (· ≤ ·) ∧
    (unionDates dataC2).Nodup ∧
    (∀ d : Nat, d ∈ unionDates dataC2 ↔ ∃ p ∈ dataC2, d ∈ p.2.map Prod.fst) ∧
    (∀ p ∈ dataC2, (alignedColumn (unionDates dataC2) p.2).all Option.isNone = true →
      p.1 ∉ (dfCloseCols dataC2).map Prod.fst) ∧
    (∀ c ∈ dfCloseCols dataC2, ∃ p ∈ dataC2, c.1 = p.1 ∧
      c.2 = fillCol (alignedColumn (unionDates dataC2) p.2) ∧
      (alignedColumn (unionDates dataC2) p.2).any Option.isSome = true) :=
  C2_aligned_table_invariants dataC2 (by decide) (by decide)

section StreakLemmas

/-- The running-counter component of the streak fold. -/
def curStreak (l : List Bool) : Nat := (l.foldl streakStep (0, 0)).1

theorem foldl_streak_concat (l : List Bool) (b : Bool) (p : Nat × Nat) :
    (l ++ [b]).foldl streakStep p = streakStep (l.foldl streakStep p) b := by
  rw [List.foldl_append]
  rfl

theorem curStreak_concat (l : List Bool) (b : Bool) :
    curStreak (l ++ [b]) = if b then curStreak l + 1 else 0 := by
  unfold curStreak
  rw [foldl_streak_concat]
  rfl

theorem longestStreak_concat (l : List Bool) (b : Bool) :
    longestStreak (l ++ [b]) = max (longestStreak l) (curStreak (l ++ [b])) := by
  unfold longestStreak
  rw [foldl_streak_concat, curStreak_concat]
  unfold streakStep curStreak
  rfl

/-- Every all-true suffix is no longer than the running counter. -/
theorem length_le_curStreak {l t : List Bool} (hsuf : t <:+ l)
    (htrue : ∀ x ∈ t, x = true) : t.length ≤ curStreak l := by
  induction l using List.reverseRecOn generalizing t with
  | nil =>
    rw [List.suffix_nil.mp hsuf]
    exact Nat.zero_le _
  | append_singleton l b ih =>
    rcases List.eq_nil_or_concat t with rfl | ⟨t', x, rfl⟩
    · exact Nat.zero_le _
    · rw [List.concat_eq_append] at hsuf htrue ⊢
      obtain ⟨s, hs⟩ := hsuf
      rw [← List.append_assoc] at hs
      have hinj := List.concat_inj.mp (show (s ++ t').concat x = l.concat b by
        rw [List.concat_eq_append, List.concat_eq_append]; exact hs)
      have hx : x = b := hinj.2
      have hxt : x = true := htrue x (by simp)
      have ht' : t' <:+ l := ⟨s, hinj.1⟩
      rw [curStreak_concat, ← hx, hxt, if_pos rfl, List.length_append]
      have := ih ht' (fun y hy => htrue y (by simp [hy]))
      simpa using Nat.add_le_add this (Nat.le_refl 1)

/-- The running counter is witnessed by an all-true suffix. -/
theorem exists_suffix_curStreak (l : List Bool) :
    ∃ t, t <:+ l ∧ (∀ x ∈ t, x = true) ∧ t.length = curStreak l := by
  induction l using List.reverseRecOn with
  | nil => exact ⟨[], List.nil_suffix, by simp, rfl⟩
  | append_singleton l b ih =>
    cases b with
    | false =>
      refine ⟨[], List.nil_suffix, by simp, ?_⟩
      rw [curStreak_concat]
      rfl
    | true =>
      obtain ⟨t, ⟨s, hs⟩, htrue, hlen⟩ := ih
      refine ⟨t ++ [true], ⟨s, by rw [← List.append_assoc, hs]⟩, ?_, ?_⟩
      · intro x hx
        rcases List.mem_append.mp hx with hx' | hx'
        · exact htrue x hx'
        · simpa using hx'
      · rw [curStreak_concat, if_pos rfl, List.length_append, hlen]
        rfl

/-- The running counter never exceeds the best streak. -/
theorem curStreak_le_longestStreak (l : List Bool) :
    curStreak l ≤ longestStreak l := by
  induction l using List.reverseRecOn with
  | nil => exact Nat.le_refl 0
  | append_singleton l b _ =>
    rw [longestStreak_concat]
    exact le_max_right _ _

/-- An infix of `l ++ [b]` is an infix of `l` or a suffix of `l ++ [b]`. -/
theorem infix_concat_cases {t l : List Bool} {b : Bool}
    (h : t <:+: l ++ [b]) : t <:+: l ∨ t <:+ (l ++ [b]) := by
  obtain ⟨s, u, hsu⟩ := h
  rcases List.eq_nil_or_concat u with rfl | ⟨u', x, rfl⟩
  · right
    exact ⟨s, by simpa using hsu⟩
  · left
    rw [List.concat_eq_append, ← List.append_assoc] at hsu
    have hinj := List.concat_inj.mp (show (s ++ t ++ u').concat x = l.concat b by
      rw [List.concat_eq_append, List.concat_eq_append]; exact hsu)
    exact ⟨s, u', hinj.1⟩

/-- Upper bound: every all-true infix is no longer than the computed
streak. -/
theorem length_le_longestStreak {l t : List Bool} (hinf : t <:+: l)
    (htrue : ∀ x ∈ t, x = true) : t.length ≤ longestStreak l := by
  induction l using List.reverseRecOn generalizing t with
  | nil =>
    obtain ⟨s, u, hsu⟩ := hinf
    have h1 := List.append_eq_nil.mp hsu
    have h2 := List.append_eq_nil.mp h1.1
    rw [h2.2]
    exact Nat.zero_le _
  | append_singleton l b ih =>
    rw [longestStreak_concat]
    rcases infix_concat_cases hinf with hmem | hsuf
    · exact le_trans (ih hmem htrue) (le_max_left _ _)
    · exact le_trans (length_le_curStreak hsuf htrue) (le_max_right _ _)

/-- Achievement: the computed streak is the length of some all-true
infix. -/
theorem exists_infix_longestStreak (l : List Bool) :
    ∃ t, t <:+: l ∧ (∀ x ∈ t, x = true) ∧ t.length = longestStreak l := by
  induction l using List.reverseRecOn with
  | nil => exact ⟨[], ⟨[], [], rfl⟩, by simp, rfl⟩
  | append_singleton l b ih =>
    rw [longestStreak_concat]
    rcases Nat.le_total (curStreak (l ++ [b])) (longestStreak l) with hle | hle
    · obtain ⟨t, ⟨s, u, hsu⟩, htrue, hlen⟩ := ih
      refine ⟨t, ⟨s, u ++ [b], ?_⟩, htrue, ?_⟩
      · rw [← List.append_assoc, hsu]
      · rw [hlen, Nat.max_eq_left hle]
    · obtain ⟨t, ⟨s, hs⟩, htrue, hlen⟩ := exists_suffix_curStreak (l ++ [b])
      refine ⟨t, ⟨s, [], by simpa using hs⟩, htrue, ?_⟩
      rw [hlen, Nat.max_eq_right hle]

end StreakLemmas

/-- **C4**: for every column of the aligned table, the Streaks table
carries the length of the longest run of consecutive strictly-positive
day-over-day deltas and of the longest run of consecutive
strictly-negative deltas, where the initial delta is `fillna(0)`-reset to
zero and a zero or missing delta breaks any run (the win/loss indicator
lists are `(diffs > 0)` and `(diffs < 0)`); the counts are naturals, and
a single-day column yields 0 for both streaks. -/
theorem C4_streaks (data : List (String × Series)) (name : String)
    (vs : List (Option ℚ)) (hc : (name, vs) ∈ dfCloseCols data) :
    ((name, longestStreak (winBools vs), longestStreak (lossBools vs)) ∈
      streaksOf (dfCloseCols data)) ∧
    (∃ t, t <:+: winBools vs ∧ (∀ x ∈ t, x = true) ∧
      t.length = longestStreak (winBools vs)) ∧
    (∀ t, t <:+: winBools vs → (∀ x ∈ t, x = true) →
      t.length ≤ longestStreak (winBools vs)) ∧
    (∃ t, t <:+: lossBools vs ∧ (∀ x ∈ t, x = true) ∧
      t.length = longestStreak (lossBools vs)) ∧
    (∀ t, t <:+: lossBools vs → (∀ x ∈ t, x = true) →
      t.length ≤ longestStreak (lossBools vs)) ∧
    (vs.length = 1 →
      longestStreak (winBools vs) = 0 ∧ longestStreak (lossBools vs) = 0) := by
  refine ⟨List.mem_map.mpr ⟨(name, vs), hc, rfl⟩,
    exists_infix_longestStreak _,
    fun t ht htrue => length_le_longestStreak ht htrue,
    exists_infix_longestStreak _,
    fun t ht htrue => length_le_longestStreak ht htrue,
    ?_⟩
  intro h1
  obtain ⟨x, rfl⟩ := List.length_eq_one.mp h1
  exact ⟨rfl, rfl⟩

/-- Concrete data for the C4 witness: three days, up then down. -/
def dataC4 : List (String × Series) :=
  [("A", [(0, some 1), (1, some 3), (2, some 2)])]

/-- Witness for C4 on a concrete three-day series. -/
theorem C4_streaks_witness :
    ((("A" : String), longestStreak (winBools [some 1, some 3, some 2]),
        longestStreak (lossBools [some 1, some 3, some 2])) ∈
      streaksOf (dfCloseCols dataC4)) ∧
    (∃ t, t <:+: winBools [some 1, some 3, some 2] ∧ (∀ x ∈ t, x = true) ∧
      t.length = longestStreak (winBools [some 1, some 3, some 2])) ∧
    (∀ t, t <:+: winBools [some 1, some 3, some 2] → (∀ x ∈ t, x = true) →
      t.length ≤ longestStreak (winBools [some 1, some 3, some 2])) ∧
    (∃ t, t <:+: lossBools [some 1, some 3, some 2] ∧ (∀ x ∈ t, x = true) ∧
      t.length = longestStreak (lossBools [some 1, some 3, some 2])) ∧
    (∀ t, t <:+: lossBools [some 1, some 3, some 2] → (∀ x ∈ t, x = true) →
      t.length ≤ longestStreak (lossBools [some 1, some 3, some 2])) ∧
    (([some 1, some 3, some 2] : List (Option ℚ)).length = 1 →
      longestStreak (winBools [some 1, some 3, some 2]) = 0 ∧
      longestStreak (lossBools [some 1, some 3, some 2]) = 0) :=
  C4_streaks dataC4 "A" [some 1, some 3, some 2] (by decide)

section RunLemmas

theorem rawWriterStage_rawXl (t : Tables) (g : FS) :
    rawWriterStage t g rawXl = some (rawWbOf t) := by
  unfold rawWriterStage fsUpdate
  rw [if_neg (show ¬ rawXl = csvPath by decide), if_pos rfl]

theorem formatterStage_after_raw (t : Tables) (g : FS) :
    (formatterStage (rawWriterStage t g)).2 = none := by
  unfold formatterStage
  rw [rawWriterStage_rawXl]
  rfl

/-- If every configured symbol's fetch errors or returns an empty frame,
nothing is kept. -/
theorem fetchedData_eq_nil {fetch : String → Option Series}
    {indices : List (String × String)}
    (h : ∀ p ∈ indices, ¬ fetchOk fetch p.2) :
    fetchedData fetch indices = [] := by
  unfold fetchedData
  rw [List.filterMap_eq_nil_iff]
  intro p hp
  cases hfp : fetch p.2 with
  | none => rfl
  | some s =>
    cases s with
    | nil => rfl
    | cons a as => exact absurd ⟨a :: as, hfp, by simp⟩ (h p hp)

theorem cacheStep_of_fail {fetch : String → Option Series} {p : String × String}
    (h : ¬ fetchOk fetch p.2) (f : FS) : cacheStep fetch f p = f := by
  unfold cacheStep
  cases hfp : fetch p.2 with
  | none => rfl
  | some s =>
    cases s with
    | nil => rfl
    | cons a as => exact absurd ⟨a :: as, hfp, by simp⟩ h

/-- If every fetch fails there are no cache writes at all. -/
theorem cacheWrites_of_allfail {fetch : String → Option Series} :
    ∀ {indices : List (String × String)},
    (∀ p ∈ indices, ¬ fetchOk fetch p.2) → ∀ fs : FS,
    cacheWrites fetch indices fs = fs := by
  intro indices
  induction indices with
  | nil => intro _ fs; rfl
  | cons q qs ih =>
    intro h fs
    unfold cacheWrites
    rw [List.foldl_cons, cacheStep_of_fail (h q (List.mem_cons_self _ _))]
    exact ih (fun p hp => h p (List.mem_cons_of_mem _ hp)) fs

/-- A successful non-empty fetch lands in `data_dict`. -/
theorem mem_fetchedData_of_ok {fetch : String → Option Series}
    {indices : List (String × String)} {p : String × String}
    (hmem : p ∈ indices) {s : Series} (hs : fetch p.2 = some s) (hne : s ≠ []) :
    (p.1, s) ∈ fetchedData fetch indices := by
  unfold fetchedData
  refine List.mem_filterMap.mpr ⟨p, hmem, ?_⟩
  have hse : s.isEmpty = false := List.isEmpty_eq_false.mpr hne
  simp [hs, hse]

/-- A failed or empty fetch keeps its configured name out of
`data_dict` (config names are dict keys, hence distinct). -/
theorem not_mem_fetchedData_names {fetch : String → Option Series}
    {indices : List (String × String)} {nm sym : String}
    (hmem : (nm, sym) ∈ indices) (hfail : ¬ fetchOk fetch sym)
    (hnodup : (indices.map Prod.fst).Nodup) :
    nm ∉ (fetchedData fetch indices).map Prod.fst := by
  intro hin
  obtain ⟨e, he, hfst⟩ := List.mem_map.mp hin
  obtain ⟨p, hp, hfp⟩ := List.mem_filterMap.mp he
  cases hq : fetch p.2 with
  | none => simp [hq] at hfp
  | some s =>
    by_cases hse : s.isEmpty = true
    · simp [hq, hse] at hfp
    · simp only [hq, hse, Bool.false_eq_true, if_false] at hfp
      have he2 := Option.some.inj hfp
      have hp1 : p.1 = nm := by rw [← hfst, ← he2]
      have hpeq : p = (nm, sym) :=
        eq_of_mem_key_nodup hnodup hp hmem (by rw [hp1])
      refine hfail ⟨s, ?_, ?_⟩
      · have h2 : p.2 = sym := by rw [hpeq]
        rw [← h2]
        exact hq
      · exact List.isEmpty_eq_false.mp (by simpa using hse)

theorem names_dfCloseCols_subset {data : List (String × Series)} {nm : String}
    (h : nm ∈ (dfCloseCols data).map Prod.fst) : nm ∈ data.map Prod.fst := by
  obtain ⟨c, hc, hck⟩ := List.mem_map.mp h
  obtain ⟨p, hp, hk, -, -⟩ := mem_dfCloseCols hc
  exact List.mem_map.mpr ⟨p, hp, by rw [← hck, hk]⟩

theorem names_summary_subset {cols : List (String × List (Option ℚ))} {nm : String}
    (h : nm ∈ (summaryOf cols).map Prod.fst) : nm ∈ cols.map Prod.fst := by
  obtain ⟨e, he, hk⟩ := List.mem_map.mp h
  have hme := (sortValuesDesc_perm (mtdLastEntries cols)).mem_iff.mp he
  obtain ⟨c, hc, hck⟩ := List.mem_map.mp hme
  exact List.mem_map.mpr ⟨c, hc, by rw [← hk, ← hck]⟩

theorem names_streaks_subset {cols : List (String × List (Option ℚ))} {nm : String}
    (h : nm ∈ (streaksOf cols).map Prod.fst) : nm ∈ cols.map Prod.fst := by
  obtain ⟨e, he, hk⟩ := List.mem_map.mp h
  obtain ⟨c, hc, hck⟩ := List.mem_map.mp he
  exact List.mem_map.mpr ⟨c, hc, by rw [← hk, ← hck]⟩

theorem mem_rowSortDesc {row : List (String × ℚ)} {x : String × ℚ}
    (h : x ∈ rowSortDesc row) : x ∈ row := by
  unfold rowSortDesc at h
  rw [List.mem_reverse] at h
  have := (List.perm_insertionSort rowLe _).mem_iff.mp h
  rw [List.mem_reverse] at this
  exact this

theorem mem_rowSortAsc {row : List (String × ℚ)} {x : String × ℚ}
    (h : x ∈ rowSortAsc row) : x ∈ row :=
  (List.perm_insertionSort rowLe _).mem_iff.mp h

/-- A dropna'd row entry comes from a present cell of the row. -/
theorem mem_dropnaRow {row : List (String × Option ℚ)} {x : String × ℚ}
    (h : x ∈ dropnaRow row) : ∃ e ∈ row, e.1 = x.1 ∧ e.2 = some x.2 := by
  unfold dropnaRow at h
  obtain ⟨a, ha, hfa⟩ := List.mem_filterMap.mp h
  cases hav : a.2 with
  | none => rw [hav] at hfa; cases hfa
  | some v =>
    rw [hav] at hfa
    have hx := Option.some.inj hfa
    refine ⟨a, ha, ?_, ?_⟩
    · rw [← hx]
    · rw [hav, ← hx]

theorem name_mem_rowAt {cols : List (String × List (Option ℚ))} {i : Nat}
    {a : String × Option ℚ} (h : a ∈ rowAt cols i) : a.1 ∈ cols.map Prod.fst := by
  obtain ⟨c, hc, hck⟩ := List.mem_map.mp h
  exact List.mem_map.mpr ⟨c, hc, by rw [← hck]⟩

/-- Every name listed among a digest row's gainers or losers is one of
the DoD table's columns. -/
theorem mem_name_dailySummary {dates : List Nat}
    {cols : List (String × List (Option ℚ))} {e : Nat × List String × List String}
    (he : e ∈ dailySummaryOf dates cols) {nm : String}
    (hnm : nm ∈ e.2.1 ∨ nm ∈ e.2.2) : nm ∈ cols.map Prod.fst := by
  unfold dailySummaryOf at he
  obtain ⟨i, _, hfi⟩ := List.mem_filterMap.mp he
  by_cases hrow : (dropnaRow (rowAt cols i)).isEmpty
  · rw [if_pos hrow] at hfi; cases hfi
  · rw [if_neg hrow] at hfi
    have he2 := Option.some.inj hfi
    have hand : nm ∈ (top3 (dropnaRow (rowAt cols i))).map Prod.fst ∨
        nm ∈ (bottom3 (dropnaRow (rowAt cols i))).map Prod.fst := by
      rw [← he2] at hnm
      exact hnm
    have hsome : ∃ x : String × ℚ, x ∈ dropnaRow (rowAt cols i) ∧ x.1 = nm := by
      rcases hand with hg | hl
      · obtain ⟨x, hx, hxk⟩ := List.mem_map.mp hg
        exact ⟨x, mem_rowSortDesc (List.take_subset _ _ hx), hxk⟩
      · obtain ⟨x, hx, hxk⟩ := List.mem_map.mp hl
        exact ⟨x, mem_rowSortAsc (List.take_subset _ _ hx), hxk⟩
    obtain ⟨x, hx, hxk⟩ := hsome
    obtain ⟨a, ha, hak, -⟩ := mem_dropnaRow hx
    have := name_mem_rowAt ha
    rw [hak, hxk] at this
    exact this

/-- Unfolding the run when at least one series was fetched. -/
theorem runScript_of_some {startD endD : Nat} {fetch : String → Option Series}
    {indices : List (String × String)} {fs0 : FS}
    (h : (fetchedData fetch indices).isEmpty = false) :
    runScript startD endD fetch indices fs0 =
      ⟨(formatterStage (rawWriterStage (tablesOf startD endD (fetchedData fetch indices))
          (cacheWrites fetch indices fs0))).1,
       (formatterStage (rawWriterStage (tablesOf startD endD (fetchedData fetch indices))
          (cacheWrites fetch indices fs0))).2⟩ := by
  simp only [runScript, h, Bool.false_eq_true, if_false]

end RunLemmas

/-- **C3**: a provider error (`none`) or empty frame for one symbol is
skipped: with at least one surviving symbol the run finishes with no
fatal error and the failed index appears in none of the downstream
tables (aligned close columns, Summary, Streaks, Daily Movers); when
every configured symbol fails, the run aborts with `NoDataFetched` and
the file system is exactly the initial one — no output file is written. -/
theorem C3_fetch_error_handling :
    (∀ (startD endD : Nat) (fetch : String → Option Series)
       (indices : List (String × String)) (fs0 : FS),
      (∀ p ∈ indices, ¬ fetchOk fetch p.2) →
      runScript startD endD fetch indices fs0 = ⟨fs0, some RunError.NoDataFetched⟩) ∧
    (∀ (startD endD : Nat) (fetch : String → Option Series)
       (indices : List (String × String)) (fs0 : FS) (nm sym : String),
      (nm, sym) ∈ indices → ¬ fetchOk fetch sym →
      (indices.map Prod.fst).Nodup →
      (∃ p ∈ indices, fetchOk fetch p.2) →
      (runScript startD endD fetch indices fs0).err = none ∧
      nm ∉ (dfCloseCols (fetchedData fetch indices)).map Prod.fst ∧
      nm ∉ (summaryOf (dfCloseCols (fetchedData fetch indices))).map Prod.fst ∧
      nm ∉ (streaksOf (dfCloseCols (fetchedData fetch indices))).map Prod.fst ∧
      (∀ e ∈ dailySummaryOf (unionDates (fetchedData fetch indices))
          (dodTable (dfCloseCols (fetchedData fetch indices))),
        nm ∉ e.2.1 ∧ nm ∉ e.2.2)) := by
  constructor
  · intro startD endD fetch indices fs0 h
    simp only [runScript, fetchedData_eq_nil h, cacheWrites_of_allfail h,
      List.isEmpty_nil, if_true]
  · intro startD endD fetch indices fs0 nm sym hmem hfail hnodup hok
    obtain ⟨p, hp, s, hs, hsne⟩ := hok
    have hddne : fetchedData fetch indices ≠ [] :=
      List.ne_nil_of_mem (mem_fetchedData_of_ok hp hs hsne)
    have hdd : (fetchedData fetch indices).isEmpty = false :=
      List.isEmpty_eq_false.mpr hddne
    have hnames : nm ∉ (fetchedData fetch indices).map Prod.fst :=
      not_mem_fetchedData_names hmem hfail hnodup
    have hclose : nm ∉ (dfCloseCols (fetchedData fetch indices)).map Prod.fst :=
      fun hin => hnames (names_dfCloseCols_subset hin)
    refine ⟨?_, hclose, ?_, ?_, ?_⟩
    · rw [runScript_of_some hdd]
      exact formatterStage_after_raw
        (tablesOf startD endD (fetchedData fetch indices))
        (cacheWrites fetch indices fs0)
    · exact fun hin => hclose (names_summary_subset hin)
    · exact fun hin => hclose (names_streaks_subset hin)
    · intro e he
      have hdodn : ∀ x : String, x ∈ (dodTable (dfCloseCols (fetchedData fetch indices))).map
          Prod.fst → x ∈ (dfCloseCols (fetchedData fetch indices)).map Prod.fst := by
        intro x hx
        obtain ⟨c, hc, hck⟩ := List.mem_map.mp hx
        obtain ⟨c', hc', hck'⟩ := List.mem_map.mp hc
        exact List.mem_map.mpr ⟨c', hc', by rw [← hck, ← hck']⟩
      constructor
      · exact fun hin => hclose (hdodn nm (mem_name_dailySummary he (Or.inl hin)))
      · exact fun hin => hclose (hdodn nm (mem_name_dailySummary he (Or.inr hin)))

/-- Concrete inputs for the C3 witness: symbol "X" errors, symbol "Y"
succeeds with one row. -/
def fetchC3 : String → Option Series :=
  fun sym => if sym = "Y" then some [(0, some 5)] else none

/-- Witness for C3: the all-fail branch aborts with `NoDataFetched`
leaving the file system untouched, and the partial-fail branch finishes
cleanly with index "A" excluded from all tables. -/
theorem C3_fetch_error_handling_witness :
    (runScript 0 1 (fun _ => none) [("A", "X")] (fun _ => none) =
      ⟨(fun _ => none), some RunError.NoDataFetched⟩) ∧
    ((runScript 0 1 fetchC3 [("A", "X"), ("B", "Y")] (fun _ => none)).err = none ∧
      "A" ∉ (dfCloseCols (fetchedData fetchC3 [("A", "X"), ("B", "Y")])).map Prod.fst ∧
      "A" ∉ (summaryOf (dfCloseCols (fetchedData fetchC3 [("A", "X"), ("B", "Y")]))).map Prod.fst ∧
      "A" ∉ (streaksOf (dfCloseCols (fetchedData fetchC3 [("A", "X"), ("B", "Y")]))).map Prod.fst ∧
      (∀ e ∈ dailySummaryOf (unionDates (fetchedData fetchC3 [("A", "X"), ("B", "Y")]))
          (dodTable (dfCloseCols (fetchedData fetchC3 [("A", "X"), ("B", "Y")]))),
        "A" ∉ e.2.1 ∧ "A" ∉ e.2.2)) :=
  ⟨C3_fetch_error_handling.1 0 1 (fun _ => none) [("A", "X")] (fun _ => none)
      (by intro p hp; rintro ⟨s, hs, -⟩; cases hs),
   C3_fetch_error_handling.2 0 1 fetchC3 [("A", "X"), ("B", "Y")] (fun _ => none)
      "A" "X" (by decide) (by rintro ⟨s, hs, -⟩; simp [fetchC3] at hs) (by decide)
      ⟨("B", "Y"), by decide, [(0, some 5)], by decide, by decide⟩⟩

/-- **C9**: the formatter stage writes its styled output only to the
dashboard workbook path: the raw workbook path (and every other path)
is left byte-for-byte unchanged, both for the stage in isolation and
across the whole run relative to the state left by the raw writer. -/
theorem C9_formatter_writes_only_dashboard (fs : FS) :
    ((formatterStage fs).1 rawXl = fs rawXl) ∧
    (∀ p : String, p ≠ outXl → (formatterStage fs).1 p = fs p) ∧
    (∀ (startD endD : Nat) (fetch : String → Option Series)
       (indices : List (String × String)) (fs0 : FS),
      (runScript startD endD fetch indices fs0).fs rawXl =
        postRaw startD endD fetch indices fs0 rawXl) := by
  have hfmt : ∀ (g : FS) (p : String), p ≠ outXl → (formatterStage g).1 p = g p := by
    intro g p hp
    unfold formatterStage
    cases hg : g rawXl with
    | none => rfl
    | some fd =>
      cases fd with
      | wb sheets => simp [fsUpdate, hp]
      | csv lines => rfl
      | cacheCsv s => rfl
  refine ⟨hfmt fs rawXl (by decide), fun p hp => hfmt fs p hp, ?_⟩
  intro startD endD fetch indices fs0
  by_cases hdd : (fetchedData fetch indices).isEmpty = true
  · simp only [runScript, postRaw, hdd, if_true]
  · have hdd' : (fetchedData fetch indices).isEmpty = false := by
      cases h : (fetchedData fetch indices).isEmpty
      · rfl
      · exact absurd h hdd
    rw [runScript_of_some hdd']
    simp only [postRaw, hdd', Bool.false_eq_true, if_false]
    exact hfmt _ rawXl (by decide)

/-- Witness for C9: on an empty file system the formatter leaves both
the raw workbook path and the CSV path untouched. -/
theorem C9_formatter_writes_only_dashboard_witness :
    ((formatterStage (fun _ => none)).1 rawXl = (none : Option FileData)) ∧
    ((formatterStage (fun _ => none)).1 csvPath = (none : Option FileData)) :=
  ⟨(C9_formatter_writes_only_dashboard (fun _ => none)).1,
   (C9_formatter_writes_only_dashboard (fun _ => none)).2.1 csvPath (by decide)⟩

/-- Input for the C10 counterexample: the provider returns a one-row
frame whose close cell is NaN, for every symbol. -/
def fetchC10 : String → Option Series := fun _ => some [(0, none)]

/-- **C10 counterexample**: a fetched frame that is non-empty but whose
close column is entirely NaN passes the `df.empty` guard, so no
`NoDataFetched` is raised, yet `dropna(axis=1, how="all")` then drops the
only column: Summary is empty, the guarded fallback branch is taken, and
the raw workbook's Market Overview reports an empty-string Top
Performer on a run that finished without any fatal error. -/
theorem C10_counterexample :
    ((runScript 0 0 fetchC10 [("A", "X")] (fun _ => none)).err = none) ∧
    (fetchedData fetchC10 [("A", "X")] ≠ []) ∧
    (summaryOf (dfCloseCols (fetchedData fetchC10 [("A", "X")])) = []) ∧
    (bestName (summaryOf (dfCloseCols (fetchedData fetchC10 [("A", "X")]))) = "") ∧
    (((overviewOfRun (runScript 0 0 fetchC10 [("A", "X")] (fun _ => none))).map
      (fun rows => rows.lookup "Top Performer")) = some (some "")) := by
  refine ⟨?_, ?_, ?_, ?_, ?_⟩ <;> decide

/-- A successful `lookup` exhibits a member of the series. -/
theorem mem_of_lookup_some {s : Series} {d : Nat} {b : Option ℚ}
    (h : s.lookup d = some b) : (d, b) ∈ s := by
  induction s with
  | nil => cases h
  | cons e es ih =>
    obtain ⟨k, v⟩ := e
    cases hk : (d == k) with
    | true =>
      simp only [List.lookup, hk] at h
      have hd : d = k := eq_of_beq hk
      have hv : v = b := Option.some.inj h
      rw [hd, ← hv]
      exact List.mem_cons_self _ _
    | false =>
      simp only [List.lookup, hk] at h
      exact List.mem_cons_of_mem _ (ih h)

/-- **C10 (amended)**: the empty-string fallback branches for Top and
Bottom Performer are unreachable in every run in which some fetched
series carries at least one non-missing close value: the Summary is then
non-empty and both performers are actual column names of the aligned
table.  (As stated the claim fails: a fetched frame that is non-empty but
all-NaN in its close column defeats the `NoDataFetched` guard yet is
dropped by the aligner, leaving Summary empty — see the
counterexample.) -/
theorem C10_best_worst_names (fetch : String → Option Series)
    (indices : List (String × String)) (p : String × String) (hp : p ∈ indices)
    (s : Series) (hs : fetch p.2 = some s) (d : Nat) (v : ℚ)
    (hlook : s.lookup d = some (some v)) :
    summaryOf (dfCloseCols (fetchedData fetch indices)) ≠ [] ∧
    bestName (summaryOf (dfCloseCols (fetchedData fetch indices))) ∈
      (dfCloseCols (fetchedData fetch indices)).map Prod.fst ∧
    worstName (summaryOf (dfCloseCols (fetchedData fetch indices))) ∈
      (dfCloseCols (fetchedData fetch indices)).map Prod.fst := by
  have hsne : s ≠ [] := by
    intro hcon
    rw [hcon] at hlook
    cases hlook
  have hdd : (p.1, s) ∈ fetchedData fetch indices :=
    mem_fetchedData_of_ok hp hs hsne
  have hdmem : d ∈ unionDates (fetchedData fetch indices) := by
    unfold unionDates
    rw [(List.perm_insertionSort _ _).mem_iff, List.mem_dedup, List.mem_flatMap]
    exact ⟨(p.1, s), hdd, List.mem_map.mpr ⟨(d, some v), mem_of_lookup_some hlook, rfl⟩⟩
  have hany : (alignedColumn (unionDates (fetchedData fetch indices)) s).any
      Option.isSome = true := by
    rw [List.any_eq_true]
    refine ⟨some v, ?_, rfl⟩
    unfold alignedColumn
    exact List.mem_map.mpr ⟨d, hdmem, by rw [hlook]; rfl⟩
  have hcol : (p.1, fillCol (alignedColumn (unionDates (fetchedData fetch indices)) s)) ∈
      dfCloseCols (fetchedData fetch indices) := by
    unfold dfCloseCols
    refine List.mem_map.mpr ⟨(p.1, alignedColumn (unionDates (fetchedData fetch indices)) s),
      List.mem_filter.mpr ⟨?_, hany⟩, rfl⟩
    exact List.mem_map.mpr ⟨(p.1, s), hdd, rfl⟩
  have hcne : dfCloseCols (fetchedData fetch indices) ≠ [] := List.ne_nil_of_mem hcol
  have hsumne : summaryOf (dfCloseCols (fetchedData fetch indices)) ≠ [] := by
    intro hcon
    have hlen := (sortValuesDesc_perm
      (mtdLastEntries (dfCloseCols (fetchedData fetch indices)))).length_eq
    have hcon' : sortValuesDesc
        (mtdLastEntries (dfCloseCols (fetchedData fetch indices))) = [] := hcon
    rw [hcon'] at hlen
    have : dfCloseCols (fetchedData fetch indices) = [] := by
      unfold mtdLastEntries at hlen
      rw [List.length_map] at hlen
      exact List.length_eq_zero.mp hlen.symm
    exact hcne this
  refine ⟨hsumne, ?_, ?_⟩
  · obtain ⟨e, t, het⟩ := List.exists_cons_of_ne_nil hsumne
    have hb : bestName (summaryOf (dfCloseCols (fetchedData fetch indices))) = e.1 := by
      unfold bestName
      rw [het]
    rw [hb]
    exact names_summary_subset
      (List.mem_map.mpr ⟨e, by rw [het]; exact List.mem_cons_self _ _, rfl⟩)
  · have hlast := List.getLast?_eq_getLast _ hsumne
    have hw : worstName (summaryOf (dfCloseCols (fetchedData fetch indices))) =
        ((summaryOf (dfCloseCols (fetchedData fetch indices))).getLast hsumne).1 := by
      unfold worstName
      rw [hlast]
      rfl
    rw [hw]
    exact names_summary_subset (List.mem_map.mpr ⟨_, List.getLast_mem hsumne, rfl⟩)

/-- Witness for the amended C10 on a one-symbol run whose series has a
present close value. -/
theorem C10_best_worst_names_witness :
    summaryOf (dfCloseCols (fetchedData (fun _ => some [(0, some 2)]) [("A", "X")])) ≠ [] ∧
    bestName (summaryOf (dfCloseCols
      (fetchedData (fun _ => some [(0, some 2)]) [("A", "X")]))) ∈
      (dfCloseCols (fetchedData (fun _ => some [(0, some 2)]) [("A", "X")])).map Prod.fst ∧
    worstName (summaryOf (dfCloseCols
      (fetchedData (fun _ => some [(0, some 2)]) [("A", "X")]))) ∈
      (dfCloseCols (fetchedData (fun _ => some [(0, some 2)]) [("A", "X")])).map Prod.fst :=
  C10_best_worst_names (fun _ => some [(0, some 2)]) [("A", "X")] ("A", "X")
    (by decide) [(0, some 2)] rfl 0 2 (by decide)

section MoversLemmas

end MoversLemmas

section CsvLemmas

theorem charVal_digitChar {n : Nat} (h : n < 10) : charVal (digitChar n) = n := by
  interval_cases n <;> rfl

theorem digitChar_is_digit (n : Nat) :
    digitChar n = '0' ∨ digitChar n = '1' ∨ digitChar n = '2' ∨ digitChar n = '3' ∨
    digitChar n = '4' ∨ digitChar n = '5' ∨ digitChar n = '6' ∨ digitChar n = '7' ∨
    digitChar n = '8' ∨ digitChar n = '9' := by
  unfold digitChar
  split <;> simp

theorem digitChar_ne_dot (n : Nat) : digitChar n ≠ '.' := by
  rcases digitChar_is_digit n with h|h|h|h|h|h|h|h|h|h <;> rw [h] <;> decide

theorem digitChar_ne_dash (n : Nat) : digitChar n ≠ '-' := by
  rcases digitChar_is_digit n with h|h|h|h|h|h|h|h|h|h <;> rw [h] <;> decide

theorem digitChar_ne_comma (n : Nat) : digitChar n ≠ ',' := by
  rcases digitChar_is_digit n with h|h|h|h|h|h|h|h|h|h <;> rw [h] <;> decide

theorem natCharsAux_ne_nil : ∀ (fuel n : Nat), n < fuel →
    natCharsAux fuel n ≠ [] := by
  intro fuel
  cases fuel with
  | zero => intro n h; omega
  | succ f =>
    intro n _
    unfold natCharsAux
    by_cases h10 : n < 10
    · rw [if_pos h10]
      simp
    · rw [if_neg h10]
      simp

theorem mem_natCharsAux : ∀ (fuel n : Nat), n < fuel →
    ∀ c ∈ natCharsAux fuel n, ∃ d, d < 10 ∧ c = digitChar d := by
  intro fuel
  induction fuel with
  | zero => intro n h; omega
  | succ f ih =>
    intro n hn c hc
    unfold natCharsAux at hc
    by_cases h10 : n < 10
    · rw [if_pos h10] at hc
      rcases List.mem_cons.mp hc with rfl | hc'
      · exact ⟨n, h10, rfl⟩
      · cases hc'
    · rw [if_neg h10] at hc
      rcases List.mem_append.mp hc with hc' | hc'
      · exact ih (n / 10) (by omega) c hc'
      · rcases List.mem_cons.mp hc' with rfl | hc''
        · exact ⟨n % 10, by omega, rfl⟩
        · cases hc''

theorem charsVal_append (xs : List Char) (c : Char) :
    charsVal (xs ++ [c]) = charsVal xs * 10 + charVal c := by
  unfold charsVal
  rw [List.foldl_append]
  rfl

theorem charsVal_natCharsAux : ∀ (fuel n : Nat), n < fuel →
    charsVal (natCharsAux fuel n) = n := by
  intro fuel
  induction fuel with
  | zero => intro n h; omega
  | succ f ih =>
    intro n hn
    unfold natCharsAux
    by_cases h10 : n < 10
    · rw [if_pos h10]
      show 0 * 10 + charVal (digitChar n) = n
      rw [charVal_digitChar h10]
      omega
    · rw [if_neg h10, charsVal_append, ih (n / 10) (by omega),
        charVal_digitChar (by omega : n % 10 < 10)]
      omega

theorem charsVal_natChars (n : Nat) : charsVal (natChars n) = n :=
  charsVal_natCharsAux (n + 1) n (by omega)

theorem mem_natChars {n : Nat} {c : Char} (h : c ∈ natChars n) :
    ∃ d, d < 10 ∧ c = digitChar d :=
  mem_natCharsAux (n + 1) n (by omega) c h

theorem natChars_ne_nil (n : Nat) : natChars n ≠ [] :=
  natCharsAux_ne_nil (n + 1) n (by omega)

theorem splitOnChar_ne_nil (sep : Char) (l : List Char) :
    splitOnChar sep l ≠ [] := by
  cases l with
  | nil => simp [splitOnChar]
  | cons c rest =>
    unfold splitOnChar
    by_cases h : c = sep
    · rw [if_pos h]
      simp
    · rw [if_neg h]
      cases hs : splitOnChar sep rest <;> simp

theorem splitOnChar_not_mem {sep : Char} {l : List Char} (h : sep ∉ l) :
    splitOnChar sep l = [l] := by
  induction l with
  | nil => rfl
  | cons c rest ih =>
    have hc : ¬ c = sep := fun hcon => h (hcon ▸ List.mem_cons_self c rest)
    have hrest : sep ∉ rest := fun hcon => h (List.mem_cons_of_mem _ hcon)
    unfold splitOnChar
    rw [if_neg hc, ih hrest]

theorem splitOnChar_append {sep : Char} {a : List Char} (b : List Char)
    (h : sep ∉ a) : splitOnChar sep (a ++ sep :: b) = a :: splitOnChar sep b := by
  induction a with
  | nil =>
    show splitOnChar sep (sep :: b) = [] :: splitOnChar sep b
    simp only [splitOnChar, if_true]
  | cons c a' ih =>
    have hc : ¬ c = sep := fun hcon => h (hcon ▸ List.mem_cons_self c a')
    have ha' : sep ∉ a' := fun hcon => h (List.mem_cons_of_mem _ hcon)
    show splitOnChar sep (c :: (a' ++ sep :: b)) = (c :: a') :: splitOnChar sep b
    simp only [splitOnChar]
    rw [if_neg hc, ih ha']

theorem dot_not_mem_natChars (n : Nat) : ('.' : Char) ∉ natChars n := by
  intro h
  obtain ⟨d, -, hd⟩ := mem_natChars h
  exact digitChar_ne_dot d hd.symm

theorem parseCentsNat_roundtrip (n : Nat) :
    parseCentsNat (natChars (n / 100) ++ '.' :: pad2 (n % 100)) = some n := by
  unfold parseCentsNat
  rw [splitOnChar_append _ (dot_not_mem_natChars _)]
  have hpad : splitOnChar '.' (pad2 (n % 100)) = [pad2 (n % 100)] := by
    refine splitOnChar_not_mem ?_
    intro h
    unfold pad2 at h
    rcases List.mem_cons.mp h with h' | h'
    · exact digitChar_ne_dot _ h'.symm
    · rcases List.mem_cons.mp h' with h'' | h''
      · exact digitChar_ne_dot _ h''.symm
      · cases h''
  rw [hpad]
  show some (charsVal (natChars (n / 100)) * 100 +
    charVal (digitChar (n % 100 / 10)) * 10 + charVal (digitChar (n % 100 % 10))) = some n
  rw [charsVal_natChars, charVal_digitChar (by omega : n % 100 / 10 < 10),
    charVal_digitChar (by omega : n % 100 % 10 < 10)]
  congr 1
  omega

theorem parseCents_roundtrip (z : ℤ) : parseCents (centsChars z) = some z := by
  by_cases hz : z < 0
  · have hsh : centsChars z =
        '-' :: (natChars (z.natAbs / 100) ++ '.' :: pad2 (z.natAbs % 100)) := by
      unfold centsChars
      rw [if_pos hz]
      rfl
    rw [hsh]
    show (if ('-' : Char) = '-' then
        (parseCentsNat (natChars (z.natAbs / 100) ++ '.' :: pad2 (z.natAbs % 100))).map
          (fun n => -(Int.ofNat n))
      else (parseCentsNat ('-' :: (natChars (z.natAbs / 100) ++
        '.' :: pad2 (z.natAbs % 100)))).map Int.ofNat) = some z
    rw [if_pos rfl, parseCentsNat_roundtrip, Option.map_some']
    congr 1
    rw [Int.ofNat_eq_natCast]
    omega
  · have hshape : centsChars z =
        natChars (z.natAbs / 100) ++ '.' :: pad2 (z.natAbs % 100) := by
      unfold centsChars
      rw [if_neg hz]
      rfl
    obtain ⟨c, cs, hcc⟩ : ∃ c cs, natChars (z.natAbs / 100) = c :: cs := by
      cases hn : natChars (z.natAbs / 100) with
      | nil => exact absurd hn (natChars_ne_nil _)
      | cons c cs => exact ⟨c, cs, rfl⟩
    have hcd : ¬ c = '-' := by
      obtain ⟨d, -, hd⟩ := mem_natChars (n := z.natAbs / 100)
        (by rw [hcc]; exact List.mem_cons_self _ _)
      rw [hd]
      exact digitChar_ne_dash d
    rw [hshape, hcc]
    show (if c = '-' then
        (parseCentsNat (cs ++ '.' :: pad2 (z.natAbs % 100))).map (fun n => -(Int.ofNat n))
      else (parseCentsNat (c :: (cs ++ '.' :: pad2 (z.natAbs % 100)))).map Int.ofNat) =
      some z
    rw [if_neg hcd]
    have hjoin : c :: (cs ++ '.' :: pad2 (z.natAbs % 100)) =
        natChars (z.natAbs / 100) ++ '.' :: pad2 (z.natAbs % 100) := by
      rw [hcc]
      rfl
    rw [hjoin, parseCentsNat_roundtrip, Option.map_some']
    rw [Int.ofNat_eq_natCast]
    congr 1
    omega

theorem mem_centsChars {z : ℤ} {c : Char} (h : c ∈ centsChars z) :
    c = '-' ∨ c = '.' ∨ ∃ d, d < 10 ∧ c = digitChar d := by
  unfold centsChars at h
  have htail : ∀ hc : c ∈ ('.' :: pad2 (z.natAbs % 100)),
      c = '-' ∨ c = '.' ∨ ∃ d, d < 10 ∧ c = digitChar d := by
    intro hc
    rcases List.mem_cons.mp hc with rfl | h3
    · exact Or.inr (Or.inl rfl)
    · unfold pad2 at h3
      rcases List.mem_cons.mp h3 with rfl | h4
      · exact Or.inr (Or.inr ⟨_, by omega, rfl⟩)
      · rcases List.mem_cons.mp h4 with rfl | h5
        · exact Or.inr (Or.inr ⟨_, by omega, rfl⟩)
        · cases h5
  by_cases hz : z < 0
  · rw [if_pos hz] at h
    rcases List.mem_append.mp h with h1 | h1
    · rcases List.mem_append.mp h1 with h2 | h2
      · exact Or.inl (by simpa using h2)
      · exact Or.inr (Or.inr (mem_natChars h2))
    · exact htail h1
  · rw [if_neg hz] at h
    rcases List.mem_append.mp h with h1 | h1
    · rcases List.mem_append.mp h1 with h2 | h2
      · cases h2
      · exact Or.inr (Or.inr (mem_natChars h2))
    · exact htail h1

end CsvLemmas

theorem parseRow_roundtrip (e : String × Option ℤ)
    (h : (',' : Char) ∉ e.1.data) : parseRow (renderRow e) = some e := by
  obtain ⟨nm, v⟩ := e
  have h' : (',' : Char) ∉ nm.data := h
  cases v with
  | none =>
    show parseRow (nm.data ++ ',' :: []) = some (nm, none)
    unfold parseRow
    rw [splitOnChar_append [] h']
    show some (String.mk nm.data, none) = some (nm, none)
    rfl
  | some z =>
    have hne : centsChars z ≠ [] := by
      refine List.ne_nil_of_mem (a := '.') ?_
      unfold centsChars
      exact List.mem_append.mpr (Or.inr (List.mem_cons_self _ _))
    obtain ⟨c, cs, hcz⟩ : ∃ c cs, centsChars z = c :: cs := by
      cases hc : centsChars z with
      | nil => exact absurd hc hne
      | cons c cs => exact ⟨c, cs, rfl⟩
    have hcm : (',' : Char) ∉ centsChars z := by
      intro hmem
      rcases mem_centsChars hmem with h1 | h1 | ⟨d, -, h1⟩
      · exact absurd h1 (by decide)
      · exact absurd h1 (by decide)
      · exact digitChar_ne_comma d h1.symm
    show parseRow (nm.data ++ ',' :: centsChars z) = some (nm, some z)
    unfold parseRow
    rw [splitOnChar_append _ h', splitOnChar_not_mem hcm, hcz]
    show (parseCents (c :: cs)).map (fun w => (String.mk nm.data, some w)) =
      some (nm, some z)
    rw [← hcz, parseCents_roundtrip, Option.map_some']

theorem parseRows_roundtrip (tbl : List (String × Option ℤ))
    (h : ∀ e ∈ tbl, (',' : Char) ∉ e.1.data) :
    parseRows (tbl.map renderRow) = some tbl := by
  induction tbl with
  | nil => rfl
  | cons e es ih =>
    show parseRows (renderRow e :: es.map renderRow) = some (e :: es)
    unfold parseRows
    rw [parseRow_roundtrip e (h e (List.mem_cons_self _ _)),
      ih (fun x hx => h x (List.mem_cons_of_mem _ hx))]

/-- **C8**: writing the Summary table to the summary CSV and reading it
back reproduces the same (index name, MTD % change) pairs in the same
order; values are the 2-decimal quantities carried exactly as cents (so
precision to 2 decimals is preserved), and a missing value round-trips
as an empty field, as pandas writes NaN.  (Names are dict keys assumed
comma-free; pandas would quote a comma, which is outside this model.) -/
theorem C8_summary_csv_roundtrip (tbl : List (String × Option ℤ))
    (h : ∀ e ∈ tbl, (',' : Char) ∉ e.1.data) :
    parseSummaryCsv (renderSummaryCsv tbl) = some tbl := by
  show (if csvHeader = csvHeader then parseRows (tbl.map renderRow) else none) =
    some tbl
  rw [if_pos rfl]
  exact parseRows_roundtrip tbl h

/-- Witness for C8 on a three-row summary with a positive, a negative
and a missing value. -/
theorem C8_summary_csv_roundtrip_witness :
    parseSummaryCsv (renderSummaryCsv
      [("NIFTY 50", some 305), ("NIFTY BANK", some (-50)), ("NIFTY IT", none)]) =
      some [("NIFTY 50", some 305), ("NIFTY BANK", some (-50)), ("NIFTY IT", none)] :=
  C8_summary_csv_roundtrip
    [("NIFTY 50", some 305), ("NIFTY BANK", some (-50)), ("NIFTY IT", none)]
    (by decide)
